import Mathlib

/-!
# Verification of the ai-pdf-assistant retrieval-augmented chat engine

This file gives a shallow embedding, in Lean 4, of the core algorithms of the
`ai-pdf-assistant` Go backend, and proves (or refutes) the frozen claims about
them.  Go strings are modelled as `List Char` (one entry per rune; Go byte
lengths coincide with rune counts on the ASCII texts the claims exercise).
Go `int` values that can influence control flow through comparisons with
possibly-negative values (`topK`, timestamps, durations) are modelled as `Int`;
loop counters and lengths are `Nat`.

The repository contains two snapshots of several backend files; the current
build is the one whose chat use case calls `GetCitations`, which pins the
`VectorSearch` copy to the one that also sorts scored chunks.  All
retrieval-side definitions below embed that current copy.

Embedded source locations:
* the current `VectorSearch` service file — `FindRelevantChunks` (including
  its `sort.Slice` descending-score sort) and `GetCitations`.  (The older
  named copy `backend/infrastructure/services/vector_search.go`, which lacks
  both the sort and `GetCitations`, is stale and not modelled.)
* `backend/infrastructure/services/pdf_service.go` — `chunkText` (identical
  in both snapshots) and `GroqAIServiceAdapter.AnswerQuestion` (grounding
  check and history conversion).
* the Groq service file — `GroqService.ChatWithContext` (request message
  assembly, including how conversation history is forwarded).
* the Puter AI service file — `buildQuestionPrompt` and the grounding check
  of `PuterAIService.AnswerQuestion`.
* `backend/handlers/chat_handler.go` — `splitIntoChunks` and the success path
  of `Stream`.
* the current session repository — `CleanupInactive`, `Get`, `AddMessage`.
* the chat use case file — `AskQuestion` (session lookup, message append,
  provider call, error propagation).
-/

/-! ## Characters and Go `strings` helpers -/

/-- ASCII lowercasing, as Go `strings.ToLower` acts on the ASCII texts used by
the claims (`Char.toLower` lowercases exactly the ASCII uppercase letters). -/
def toLower (s : List Char) : List Char := s.map Char.toLower

/-- The whitespace class used by Go `strings.Fields` (`unicode.IsSpace`),
restricted to the ASCII range. -/
def isSpace (c : Char) : Bool :=
  c = ' ' || c = '\t' || c = '\n' || c = '\x0b' || c = '\x0c' || c = '\r'

/-- Go check `strings.HasPrefix s sub`: does `s` start with `sub`? -/
def startsWith : List Char → List Char → Bool
  | _, [] => true
  | [], _ :: _ => false
  | c :: s, d :: t => c = d && startsWith s t

/-- Go `strings.Contains s sub`: does `sub` occur as a contiguous substring
of `s`? -/
def containsSub : List Char → List Char → Bool
  | [], sub => sub.isEmpty
  | c :: s, sub => startsWith (c :: s) sub || containsSub s sub

/-- Accumulator-passing core of Go `strings.Fields`: `acc` holds the
characters of the word currently being read, in order. -/
def fieldsAux : List Char → List Char → List (List Char)
  | [], acc => if acc.isEmpty then [] else [acc]
  | c :: cs, acc =>
    if isSpace c then
      if acc.isEmpty then fieldsAux cs [] else acc :: fieldsAux cs []
    else fieldsAux cs (acc ++ [c])

/-- Go `strings.Fields`: split around runs of whitespace, dropping empty
fields. -/
def fields (s : List Char) : List (List Char) := fieldsAux s []

/-- Left half of Go `strings.TrimSpace`. -/
def trimLeft (s : List Char) : List Char := s.dropWhile isSpace

/-- Go `strings.TrimSpace`: strip leading and trailing whitespace. -/
def trimSpace (s : List Char) : List Char :=
  ((trimLeft s).reverse.dropWhile isSpace).reverse

/-- Join a list of strings with single spaces (used both by the chunk
builder's invariant and by the claims' "rejoin with single spaces"). -/
def joinSpace : List (List Char) → List Char
  | [] => []
  | [w] => w
  | w :: ws => w ++ ' ' :: joinSpace ws

/-- A well-formed word, as produced by `fields`: non-empty and free of
whitespace. -/
def wordOK (w : List Char) : Prop := w ≠ [] ∧ ∀ c ∈ w, isSpace c = false

/-! ## `VectorSearch` (current copy) — chunks, scoring, retrieval

`FindRelevantChunks` lowercases the query, splits it into
whitespace-separated words, scores every chunk (one point per query word
occurring as a substring of the lowercased chunk text, plus five for the
whole query occurring verbatim), sorts the scored slice by **descending
score** with `sort.Slice(scored, func(i, j) .. scored[i].score >
scored[j].score ..)`, then walks the sorted slice collecting chunks with a
positive score until `topK` are gathered.  If nothing scored positive it
falls back to the first `min(topK, len(chunks))` chunks of the untouched
original pool.

On the sort model: Go `sort.Slice` is pdqsort, documented as **not
guaranteed to be stable**, and the call uses no index tie-break, so the order
among equal-score chunks is not pinned down by the source.  For slices of
fewer than 12 elements Go's pdqsort runs exactly an insertion sort, which
for this strict comparison is stable.  The model therefore uses that
insertion sort for all sizes: it agrees with the program exactly on pools of
fewer than 12 chunks and realizes the documented contract (a descending-score
permutation) everywhere, but it fixes ties to original pooled order, which
the program does **not** guarantee for larger pools — that gap is the
subject of claim C1. -/

/-- Model of `proto.Chunk` (the fields used by the core algorithms). -/
structure Chunk where
  id : List Char
  text : List Char
  chunkIndex : Int
  pageNumber : Int
deriving DecidableEq, Repr

/-- The score `FindRelevantChunks` assigns to one chunk for a query. -/
def chunkScore (query : List Char) (c : Chunk) : Nat :=
  (fields (toLower query)).countP (fun w => containsSub (toLower c.text) w)
    + (if containsSub (toLower c.text) (toLower query) then 5 else 0)

/-- The comparison the `sort.Slice` call induces on scored chunks: `p` may
come before `q` exactly when `p`'s score is at least `q`'s (the Go `less`
function is the strict `scored[i].score > scored[j].score`). -/
def scoreDesc (p q : Chunk × Nat) : Prop := q.2 ≤ p.2

instance : DecidableRel scoreDesc := fun p q => Nat.decLe q.2 p.2

/-- The selection loop of `FindRelevantChunks`: walk the (sorted) scored
chunks in order, keep those with score > 0, and stop as soon as `topK` have
been kept (`n` is the number kept so far, i.e. `len(relevant)`). -/
def selectLoop (topK : Int) : List (Chunk × Nat) → Nat → List Chunk
  | [], _ => []
  | (c, s) :: rest, n =>
    if 0 < s then
      if topK ≤ (n : Int) + 1 then [c] else c :: selectLoop topK rest (n + 1)
    else selectLoop topK rest n

/-- Model of `VectorSearch.FindRelevantChunks` (current copy): score, sort
by descending score, select up to `topK` positively-scored chunks, fall back
to a prefix of the original pool when nothing matched.  The sort is the
insertion sort discussed in the section comment.  (For negative `topK` the
Go fallback branch would panic on the slice expression; the model is only
ever instantiated with `topK ≥ 0`.) -/
def findRelevantChunks (chunks : List Chunk) (query : List Char) (topK : Int) :
    List Chunk :=
  if chunks.isEmpty then []
  else
    let scored := chunks.map (fun c => (c, chunkScore query c))
    let sorted := List.insertionSort scoreDesc scored
    let relevant := selectLoop topK sorted 0
    if relevant.isEmpty then
      chunks.take (min topK (chunks.length : Int)).toNat
    else relevant

/-! ## `pdf_service.go` — `chunkText`

`chunkText` returns the whole text as one chunk when it already fits in
`maxChunkSize`; otherwise it splits the text into whitespace-separated words
and greedily packs them into space-joined chunks, flushing the current chunk
whenever appending the next word (plus one separating space) would exceed the
limit.  A word longer than the limit is still placed, alone, in its own
chunk. -/

/-- The word-packing loop of `chunkText`.  `cur` is the `strings.Builder`
content; a flush emits `trimSpace cur` and restarts the builder with the
current word. -/
def chunkLoop (maxChunkSize : Nat) : List (List Char) → List Char →
    List (List Char)
  | [], cur => if 0 < cur.length then [trimSpace cur] else []
  | w :: ws, cur =>
    if cur.length + w.length + 1 > maxChunkSize ∧ 0 < cur.length then
      trimSpace cur :: chunkLoop maxChunkSize ws w
    else
      chunkLoop maxChunkSize ws
        ((if 0 < cur.length then cur ++ [' '] else cur) ++ w)

/-- Model of `PDFService.chunkText` from `pdf_service.go`. -/
def chunkText (text : List Char) (maxChunkSize : Nat) : List (List Char) :=
  if text.length ≤ maxChunkSize then [text]
  else chunkLoop maxChunkSize (fields text) []

/-! ## `vector_search.go` (citations variant) — `GetCitations`

`GetCitations` walks the selected chunks, normalises a zero page number to 1,
and records — keyed by page number, first chunk wins — a preview of the chunk
text capped at 100 characters with `"..."` appended when truncated.  The Go
implementation accumulates the entries in a `map[int32]string` and emits them
in Go's unspecified map-iteration order; the model emits them in first-insert
order, and every property proved below is invariant under permutation of the
emitted list. -/

/-- Model of `Citation` from `vector_search.go`. -/
structure Citation where
  page : Int
  text : List Char
deriving DecidableEq, Repr

/-- Page attribution of a chunk: page 0 is normalised to 1. -/
def citationPage (c : Chunk) : Int :=
  if c.pageNumber = 0 then 1 else c.pageNumber

/-- The preview stored for a page: at most 100 characters, with an ellipsis
marker appended when the chunk text was truncated. -/
def preview (t : List Char) : List Char :=
  if t.length > 100 then t.take 100 ++ "...".toList else t

/-- Key membership test, `_, exists := pageMap[pageNum]`, on the association-list model. -/
def hasPage (m : List (Int × List Char)) (p : Int) : Bool :=
  m.any (fun e => e.1 = p)

/-- The map-building loop of `GetCitations` (first chunk per page wins). -/
def buildPageMap : List Chunk → List (Int × List Char) →
    List (Int × List Char)
  | [], m => m
  | c :: cs, m =>
    if hasPage m (citationPage c) then buildPageMap cs m
    else buildPageMap cs (m ++ [(citationPage c, preview c.text)])

/-- Model of `VectorSearch.GetCitations`. -/
def getCitations (chunks : List Chunk) : List Citation :=
  (buildPageMap chunks []).map (fun e => ⟨e.1, e.2⟩)

/-! ## Chat data model, history and prompt building

`AskQuestion` (chat use case) first appends the incoming user message to the
session, then builds the provider history from `session.Messages`, skipping
the entry just appended (the last one) and rendering `user`/`assistant`
messages as `User: `/`Assistant: ` lines.  `buildQuestionPrompt` (Puter AI
service) renders the document context, at most the last 4 history lines, and
the current question into a single prompt string. -/

/-- Model of `proto.ChatMessage` (role and content). -/
structure ChatMessage where
  role : List Char
  content : List Char
deriving DecidableEq, Repr

/-- One history line of `AskQuestion`: `user` and `assistant` messages are
prefixed, any other role is skipped. -/
def formatMsg (m : ChatMessage) : Option (List Char) :=
  if m.role = "user".toList then some ("User: ".toList ++ m.content)
  else if m.role = "assistant".toList then
    some ("Assistant: ".toList ++ m.content)
  else none

/-- The history `AskQuestion` hands to the provider: every stored message
except the one just appended (the current turn's user message), formatted. -/
def sessionHistory (messages : List ChatMessage) : List (List Char) :=
  messages.dropLast.filterMap formatMsg

/-- One rendered history line inside the prompt. -/
def promptLine (m : List Char) : List Char := "- ".toList ++ m ++ "\n".toList

/-- The history entries `buildQuestionPrompt` renders: those whose index `i`
satisfies `i >= len(history)-4`. -/
def includedLines (history : List (List Char)) : List (List Char) :=
  (history.enum.filter (fun p => history.length ≤ p.1 + 4)).map Prod.snd

/-- The ASCII apostrophe (written by code point to keep the source plain). -/
def apos : Char := Char.ofNat 39

/-- The fixed closing instruction of `buildQuestionPrompt`. -/
def answerInstruction : List Char :=
  "Answer the question based ONLY on the document context above. If the answer is not in the context, respond with: ".toList
    ++ apos :: "I cannot find this information in the document.".toList
    ++ [apos]

/-- Model of `buildQuestionPrompt` from the Puter AI service file. -/
def buildQuestionPrompt (context question : List Char)
    (history : List (List Char)) : List Char :=
  context ++ "\n\n".toList ++
    (if history.isEmpty then []
     else
       "Previous conversation:\n".toList ++
         ((includedLines history).map promptLine).flatten ++ "\n".toList) ++
    "Question: ".toList ++ question ++ "\n\n".toList ++ answerInstruction

/-- Modelled from the spec: the prompt assembled from the document context,
an explicitly given window of history lines (rendered verbatim, in order),
and the current question.  Used to compare `buildQuestionPrompt` against the
spec's "only the most recent 4 prior messages" description. -/
def promptWithWindow (context question : List Char)
    (window : List (List Char)) : List Char :=
  context ++ "\n\n".toList ++
    (if window.isEmpty then []
     else
       "Previous conversation:\n".toList ++ (window.map promptLine).flatten ++
         "\n".toList) ++
    "Question: ".toList ++ question ++ "\n\n".toList ++ answerInstruction

/-! ## The Groq provider path — history forwarding

`GroqAIServiceAdapter.AnswerQuestion` (`pdf_service.go`) converts the
formatted history lines it receives into chat messages with alternating
roles (`i%2`), keeping each line verbatim as the content, and passes them
all to `GroqService.ChatWithContext`.  `ChatWithContext` (Groq service file)
assembles the request as one system message wrapping the (length-capped)
document context, then **every** history message in order, then the current
question — it applies no last-4 window. -/

/-- Model of `GroqMessage` from the Groq service file. -/
structure GroqMessage where
  role : List Char
  content : List Char
deriving DecidableEq, Repr

/-- The context-length safety cap at the top of `ChatWithContext`. -/
def groqContextText (pdfText : List Char) : List Char :=
  if pdfText.length > 100000 then
    pdfText.take 100000 ++ "\n... [content truncated due to length]".toList
  else pdfText

/-- The system-message content `ChatWithContext` builds around the document
context. -/
def groqSystemContent (pdfText : List Char) : List Char :=
  "You are an AI assistant helping users understand and analyze PDF documents. \n\nHere is the content of the PDF document:\n\n".toList
    ++ groqContextText pdfText
    ++ "\n\nPlease answer questions about this document accurately and helpfully. Maintain context from previous messages in this conversation. If the answer is not found in the document, clearly state that the information is not available in the provided PDF.".toList

/-- The history conversion in `GroqAIServiceAdapter.AnswerQuestion`: one chat
message per formatted history line, roles alternating user/assistant by
index parity, content kept verbatim. -/
def groqChatHistory (history : List (List Char)) : List ChatMessage :=
  history.enum.map (fun p =>
    ⟨if p.1 % 2 = 1 then "assistant".toList else "user".toList, p.2⟩)

/-- The request-message assembly of `GroqService.ChatWithContext`: system
message, the entire conversation history (roles normalised, contents
verbatim), then the current question. -/
def chatWithContextMessages (pdfText userQuestion : List Char)
    (conversationHistory : List ChatMessage) : List GroqMessage :=
  ⟨"system".toList, groqSystemContent pdfText⟩ ::
    (conversationHistory.map (fun m =>
      ⟨if m.role = "assistant".toList then "assistant".toList
        else "user".toList, m.content⟩) ++
      [⟨"user".toList, userQuestion⟩])

/-- The full Groq-path request for one turn: adapter conversion followed by
`ChatWithContext` assembly. -/
def groqRequestMessages (context question : List Char)
    (history : List (List Char)) : List GroqMessage :=
  chatWithContextMessages context question (groqChatHistory history)

/-! ## Grounding heuristic of the answer gateways

`GroqAIServiceAdapter.AnswerQuestion` (`pdf_service.go`) and
`PuterAIService.AnswerQuestion` each scan the lowercased answer for a fixed
set of "not found" phrases; any hit reports the answer as not grounded. -/

/-- The grounded flag computed by `GroqAIServiceAdapter.AnswerQuestion`. -/
def groqAnswerFound (answer : List Char) : Bool :=
  !containsSub (toLower answer) "not found".toList &&
    !containsSub (toLower answer) "not available".toList &&
    !containsSub (toLower answer) "cannot find".toList

/-- The grounded flag computed by `PuterAIService.AnswerQuestion`. -/
def puterAnswerFound (answer : List Char) : Bool :=
  !containsSub (toLower answer) "cannot find".toList &&
    !containsSub (toLower answer) "not in the document".toList

/-- The canonical "not found" sentence the system prompt asks the model to
produce. -/
def notFoundSentence : List Char :=
  "I cannot find this information in the document.".toList

/-! ## `chat_handler.go` — `splitIntoChunks` and the `Stream` success path

`splitIntoChunks` first tokenises the answer into words and explicit
separator tokens (a `" "` token per space, a `"\n"` token per newline), then
greedily regroups them into fragments of three non-separator words each.
`Stream` (success path) emits one `token` event per fragment, then exactly one
terminal `done` event. -/

/-- The tokenising loop of `splitIntoChunks`: `cur` is `currentWord`. -/
def splitWordsAux : List Char → List Char → List (List Char)
  | [], cur => if cur.isEmpty then [] else [cur]
  | ch :: rest, cur =>
    if ch = ' ' ∨ ch = '\n' then
      (if cur.isEmpty then [] else [cur]) ++
        (if ch = '\n' then ['\n'] else [' ']) :: splitWordsAux rest []
    else splitWordsAux rest (cur ++ [ch])

/-- The regrouping loop of `splitIntoChunks`: `chunk` is the fragment being
assembled, `n` the count of non-separator words in it. -/
def groupWordsAux : List (List Char) → List Char → Nat → List (List Char)
  | [], chunk, _ => if chunk.isEmpty then [] else [chunk]
  | w :: ws, chunk, n =>
    let chunk₁ := chunk ++ w
    let n₁ := if w = [' '] ∨ w = ['\n'] then n else n + 1
    if 3 ≤ n₁ then chunk₁ :: groupWordsAux ws [] 0
    else groupWordsAux ws chunk₁ n₁

/-- Model of `splitIntoChunks` from `chat_handler.go`. -/
def splitIntoChunks (text : List Char) : List (List Char) :=
  groupWordsAux (splitWordsAux text []) [] 0

/-- One server-sent event of the streaming responder. -/
inductive SSEEvent where
  | token (content : List Char)
  | done (answer : List Char) (sessionId : List Char) (answerFound : Bool)
      (citations : List Citation)
  | fail (message code : List Char)
deriving DecidableEq, Repr

/-- The event sequence the `Stream` handler emits on its success path: one
`token` event per fragment of the answer, then the single terminal `done`
event.  (The fixed 20 ms inter-event pacing is real time and outside the
model.) -/
def streamEvents (answer sessionId : List Char) (answerFound : Bool)
    (citations : List Citation) : List SSEEvent :=
  (splitIntoChunks answer).map SSEEvent.token ++
    [SSEEvent.done answer sessionId answerFound citations]

/-! ## `session_repository.go` — the session store

Sessions are modelled as an association list from id to session record, which
is the ordered view of the Go `map[string]*proto.ChatSession`; `lastActivity`
is the Unix-seconds timestamp.  `CleanupInactive` computes
`threshold = now - int64(duration.Seconds())` and deletes every session with
`LastActivity < threshold`, returning the number deleted.  The model takes the
duration directly in whole seconds. -/

/-- Model of `proto.ChatSession` (the fields the claims touch): the message
log and the pooled chunks of the session's documents. -/
structure Session where
  messages : List ChatMessage
  chunks : List Chunk
  lastActivity : Int
deriving DecidableEq, Repr

/-- The deletion loop of `CleanupInactive`: returns the surviving entries and
the number of deleted ones. -/
def cleanupLoop : List (List Char × Session) → Int →
    List (List Char × Session) × Nat
  | [], _ => ([], 0)
  | e :: rest, threshold =>
    let r := cleanupLoop rest threshold
    if e.2.lastActivity < threshold then (r.1, r.2 + 1)
    else (e :: r.1, r.2)

/-- Model of `SessionRepository.CleanupInactive` (duration in whole
seconds). -/
def cleanupInactive (store : List (List Char × Session)) (now duration : Int) :
    List (List Char × Session) × Nat :=
  cleanupLoop store (now - duration)

/-- Model of `SessionRepository.Get`: first entry with the given id. -/
def findSession : List (List Char × Session) → List Char → Option Session
  | [], _ => none
  | e :: rest, sid => if e.1 = sid then some e.2 else findSession rest sid

/-- Model of `SessionRepository.AddMessage`: append `m` to the message log of
the session with the given id; `none` when the session does not exist. -/
def addMessage (store : List (List Char × Session)) (sid : List Char)
    (m : ChatMessage) : Option (List (List Char × Session)) :=
  match findSession store sid with
  | none => none
  | some _ =>
    some (store.map (fun e =>
      if e.1 = sid then
        (e.1, { e.2 with messages := e.2.messages ++ [m] })
      else e))

/-! ## The chat use case — `AskQuestion`

The model follows the order of effects in the Go `AskQuestion`: fetch the
session, append the user message, retrieve relevant chunks, call the answer
provider, and only on provider success append the assistant message.  The
provider call is an input of the model (`Except` over error message versus
`(answer, answerFound)`), since it is an external HTTP service; the context
string assembled for it does not influence the store or the response fields
at issue.  `STATUS_*` and error codes are modelled verbatim. -/

/-- Model of `proto.Status` (the values `AskQuestion` produces). -/
inductive Status where
  | success
  | notFound
  | failure
deriving DecidableEq, Repr

/-- Model of `proto.ChatResponse` (the fields `AskQuestion` fills). -/
structure ChatResp where
  status : Status
  errorCode : List Char
  errorMessage : List Char
  response : List Char
  sessionId : List Char
  answerFound : Bool
  citations : List Citation
deriving DecidableEq, Repr

/-- Model of `ChatUseCase.AskQuestion`.  `ai` is the outcome of the answer
provider call for this turn. -/
def askQuestion (store : List (List Char × Session)) (sid message : List Char)
    (ai : Except (List Char) (List Char × Bool)) :
    ChatResp × List (List Char × Session) :=
  match findSession store sid with
  | none =>
    (⟨Status.notFound, "SESSION_NOT_FOUND".toList, "Session not found".toList,
      [], [], false, []⟩, store)
  | some session =>
    match addMessage store sid ⟨"user".toList, message⟩ with
    | none =>
      (⟨Status.failure, "MESSAGE_STORAGE_ERROR".toList,
        "Failed to store message".toList, [], [], false, []⟩, store)
    | some store₁ =>
      let relevantChunks := findRelevantChunks session.chunks message 20
      match ai with
      | Except.error _ =>
        (⟨Status.failure, "AI_SERVICE_ERROR".toList,
          "Failed to get AI response".toList, [], [], false, []⟩, store₁)
      | Except.ok (answer, answerFound) =>
        let store₂ :=
          (addMessage store₁ sid ⟨"assistant".toList, answer⟩).getD store₁
        (⟨Status.success, [], [], answer, sid, answerFound,
          getCitations relevantChunks⟩, store₂)

/-! ## Substring lemmas -/

theorem startsWith_iff (sub : List Char) :
    ∀ s : List Char, startsWith s sub = true ↔ ∃ rest, s = sub ++ rest := by
  induction sub with
  | nil => intro s; simp [startsWith]
  | cons d t ih =>
    intro s
    cases s with
    | nil => simp [startsWith]
    | cons c s' =>
      simp only [startsWith, Bool.and_eq_true, decide_eq_true_eq, ih,
        List.cons_append, List.cons.injEq]
      constructor
      · rintro ⟨hc, rest, hr⟩; exact ⟨rest, hc, hr⟩
      · rintro ⟨rest, hc, hr⟩; exact ⟨hc, rest, hr⟩

theorem containsSub_iff (sub : List Char) :
    ∀ s : List Char,
      containsSub s sub = true ↔ ∃ pre post, s = pre ++ sub ++ post := by
  intro s
  induction s with
  | nil =>
    simp only [containsSub, List.isEmpty_iff]
    constructor
    · rintro rfl; exact ⟨[], [], rfl⟩
    · rintro ⟨pre, post, h⟩
      rcases List.append_eq_nil.mp h.symm with ⟨h1, h2⟩
      exact (List.append_eq_nil.mp h1).2
  | cons c s' ih =>
    simp only [containsSub, Bool.or_eq_true, startsWith_iff, ih]
    constructor
    · rintro (⟨rest, hr⟩ | ⟨pre, post, hp⟩)
      · exact ⟨[], rest, by simpa using hr⟩
      · exact ⟨c :: pre, post, by simp [hp]⟩
    · rintro ⟨pre, post, hp⟩
      cases pre with
      | nil => exact Or.inl ⟨post, by simpa using hp⟩
      | cons p pre' =>
        right
        refine ⟨pre', post, ?_⟩
        have hp' : c :: s' = p :: (pre' ++ (sub ++ post)) := by
          simpa [List.append_assoc] using hp
        rw [List.append_assoc]
        exact (List.cons_eq_cons.mp hp').2

theorem containsSub_trans {s m w : List Char}
    (h1 : containsSub s m = true) (h2 : containsSub m w = true) :
    containsSub s w = true := by
  rcases (containsSub_iff m s).mp h1 with ⟨p, q, rfl⟩
  rcases (containsSub_iff w m).mp h2 with ⟨p', q', rfl⟩
  exact (containsSub_iff w _).mpr ⟨p ++ p', q' ++ q, by simp⟩

/-! ## Retrieval: behaviour of `FindRelevantChunks` (C1, C2) -/

theorem selectLoop_eq (topK : Int) (l : List (Chunk × Nat)) :
    ∀ n : Nat, (n : Int) < topK →
      selectLoop topK l n =
        ((l.filter (fun p => 0 < p.2)).map Prod.fst).take (topK - n).toNat := by
  induction l with
  | nil => intro n _; simp [selectLoop]
  | cons hd tl ih =>
    intro n hn
    obtain ⟨c, s⟩ := hd
    by_cases hs : 0 < s
    · by_cases hb : topK ≤ (n : Int) + 1
      · have ht : (topK - n).toNat = 1 := by omega
        simp [selectLoop, hs, hb, ht, List.filter_cons, List.take_succ_cons]
      · have hlt : ((n + 1 : Nat) : Int) < topK := by push_cast; omega
        have ht : (topK - n).toNat = (topK - (n + 1)).toNat + 1 := by omega
        simp [selectLoop, hs, hb, List.filter_cons, ih (n + 1) hlt, ht,
          List.take_succ_cons]
    · simp [selectLoop, hs, List.filter_cons, ih n hn]

/-- When no chunk scores above 0, the sort is immaterial: the selection
yields nothing and `FindRelevantChunks` returns the first
`min(topK, len(chunks))` chunks of the untouched original pool. -/
theorem findRelevantChunks_no_match (chunks : List Chunk)
    (query : List Char) (topK : Int) (hk : 1 ≤ topK)
    (h0 : ∀ c ∈ chunks, chunkScore query c = 0) :
    findRelevantChunks chunks query topK =
      chunks.take (min topK (chunks.length : Int)).toNat := by
  unfold findRelevantChunks
  by_cases hke : chunks.isEmpty
  · rw [List.isEmpty_iff] at hke
    subst hke
    simp
  · simp only [hke, if_false]
    rw [selectLoop_eq topK _ 0 (by omega)]
    have hfil : (List.insertionSort scoreDesc
        (chunks.map fun c => (c, chunkScore query c))).filter
          (fun p => 0 < p.2) = [] := by
      rw [List.filter_eq_nil_iff]
      intro p hp
      have hmem : p ∈ chunks.map fun c => (c, chunkScore query c) :=
        (List.perm_insertionSort scoreDesc _).mem_iff.mp hp
      rcases List.mem_map.mp hmem with ⟨c, hc, rfl⟩
      simp [h0 c hc]
    rw [hfil]
    simp

/-- C1 (evaluation of the code at a concrete input): with the two-chunk pool
below and query `"x y"`, the pool-order scores are [1, 7] and
`FindRelevantChunks` returns the chunks reordered by descending score
`[7, 1]` — the sort step is live.  (For this pool of fewer than 12 chunks the
modelled insertion sort is exactly what Go `sort.Slice` runs, so the
evaluation is exact; the stability the claim additionally demands for
equal-score ties on larger pools is what `sort.Slice` does not guarantee.) -/
theorem c1_score_descending_eval :
    findRelevantChunks
        [⟨"1".toList, "x".toList, 0, 1⟩, ⟨"2".toList, "x y".toList, 1, 1⟩]
        "x y".toList 2 =
      [⟨"2".toList, "x y".toList, 1, 1⟩, ⟨"1".toList, "x".toList, 0, 1⟩] ∧
    chunkScore "x y".toList ⟨"1".toList, "x".toList, 0, 1⟩ = 1 ∧
    chunkScore "x y".toList ⟨"2".toList, "x y".toList, 1, 1⟩ = 7 := by
  decide

/-- C2: for every non-empty chunk pool, `topK ≥ 1`, and query under which no
chunk scores above 0, `FindRelevantChunks` returns exactly the first
`min(topK, len(chunks))` chunks in original pooled order, and the result is
non-empty. -/
theorem c2_zero_score_fallback (chunks : List Chunk) (query : List Char)
    (topK : Int) (hne : chunks ≠ []) (hk : 1 ≤ topK)
    (h0 : ∀ c ∈ chunks, chunkScore query c = 0) :
    findRelevantChunks chunks query topK =
      chunks.take (min topK (chunks.length : Int)).toNat ∧
    findRelevantChunks chunks query topK ≠ [] := by
  have heq := findRelevantChunks_no_match chunks query topK hk h0
  refine ⟨heq, ?_⟩
  rw [heq]
  have hlen : 0 < chunks.length := List.length_pos.mpr hne
  have hmin : (1 : Int) ≤ min topK (chunks.length : Int) :=
    le_min hk (by exact_mod_cast hlen)
  have htk : (min topK (chunks.length : Int)).toNat ≠ 0 := by omega
  simp only [ne_eq, List.take_eq_nil_iff]
  push_neg
  exact ⟨htk, hne⟩

/-- Witness for C2 at the spec's own scenario: a 3-chunk pool, a query
sharing no tokens with any chunk, `topK = 3` — all three chunks come back in
original order. -/
theorem c2_zero_score_fallback_witness :
    ([⟨"1".toList, "aa".toList, 0, 1⟩, ⟨"2".toList, "bb".toList, 1, 1⟩,
        ⟨"3".toList, "cc".toList, 2, 1⟩] : List Chunk) ≠ [] ∧
    (1 : Int) ≤ 3 ∧
    (∀ c ∈ ([⟨"1".toList, "aa".toList, 0, 1⟩, ⟨"2".toList, "bb".toList, 1, 1⟩,
        ⟨"3".toList, "cc".toList, 2, 1⟩] : List Chunk),
      chunkScore "zz".toList c = 0) ∧
    (findRelevantChunks
        [⟨"1".toList, "aa".toList, 0, 1⟩, ⟨"2".toList, "bb".toList, 1, 1⟩,
          ⟨"3".toList, "cc".toList, 2, 1⟩] "zz".toList 3 =
      ([⟨"1".toList, "aa".toList, 0, 1⟩, ⟨"2".toList, "bb".toList, 1, 1⟩,
          ⟨"3".toList, "cc".toList, 2, 1⟩] : List Chunk).take
        (min 3 (([⟨"1".toList, "aa".toList, 0, 1⟩,
          ⟨"2".toList, "bb".toList, 1, 1⟩,
          ⟨"3".toList, "cc".toList, 2, 1⟩] : List Chunk).length : Int)).toNat ∧
      findRelevantChunks
        [⟨"1".toList, "aa".toList, 0, 1⟩, ⟨"2".toList, "bb".toList, 1, 1⟩,
          ⟨"3".toList, "cc".toList, 2, 1⟩] "zz".toList 3 ≠ []) :=
  ⟨by decide, by decide, by decide,
    c2_zero_score_fallback _ "zz".toList 3 (by decide) (by decide) (by decide)⟩

/-! ## Prompt history window (C3) -/

theorem enumFrom_filter_window (k : Nat) :
    ∀ (l : List (List Char)) (s : Nat),
      ((l.enumFrom s).filter (fun p => s + l.length ≤ p.1 + k)).map Prod.snd =
        l.drop (l.length - k) := by
  intro l
  induction l with
  | nil => intro s; simp
  | cons a l' ih =>
    intro s
    have hcongr :
        (l'.enumFrom (s + 1)).filter
            (fun p => s + (a :: l').length ≤ p.1 + k) =
          (l'.enumFrom (s + 1)).filter
            (fun p => (s + 1) + l'.length ≤ p.1 + k) := by
      apply List.filter_congr
      intro p _
      apply decide_eq_decide.mpr
      constructor <;> (intro h; simp only [List.length_cons] at *; omega)
    have henum : (a :: l').enumFrom s = (s, a) :: l'.enumFrom (s + 1) := rfl
    rw [henum, List.filter_cons]
    by_cases h : l'.length + 1 ≤ k
    · have hcond : (fun p : Nat × List Char =>
          decide (s + (a :: l').length ≤ p.1 + k)) (s, a) = true := by
        simp only [List.length_cons]
        exact decide_eq_true (by omega)
      rw [if_pos hcond, List.map_cons, hcongr, ih (s + 1)]
      have hk0 : l'.length - k = 0 := by omega
      have hd0 : (a :: l').length - k = 0 := by
        simp only [List.length_cons]
        omega
      rw [hk0, hd0, List.drop_zero, List.drop_zero]
    · have hcond : ¬((fun p : Nat × List Char =>
          decide (s + (a :: l').length ≤ p.1 + k)) (s, a) = true) := by
        simp only [List.length_cons, decide_eq_true_eq]
        omega
      rw [if_neg hcond, hcongr, ih (s + 1)]
      have hd : (a :: l').length - k = (l'.length - k) + 1 := by
        simp only [List.length_cons]
        omega
      rw [hd, List.drop_succ_cons]

theorem includedLines_eq_drop (history : List (List Char)) :
    includedLines history = history.drop (history.length - 4) := by
  unfold includedLines
  rw [show history.enum = history.enumFrom 0 from rfl]
  rw [show (fun p : Nat × List Char => decide (history.length ≤ p.1 + 4)) =
      (fun p : Nat × List Char => decide (0 + history.length ≤ p.1 + 4)) by
    funext p; simp]
  exact enumFrom_filter_window 4 history 0

theorem groqRequestMessages_contents_aux :
    ∀ (l : List (List Char)) (k : Nat),
      (((List.enumFrom k l).map (fun p : Nat × List Char =>
          (⟨if p.1 % 2 = 1 then "assistant".toList else "user".toList,
            p.2⟩ : ChatMessage))).map
        (fun m : ChatMessage =>
          (⟨if m.role = "assistant".toList then "assistant".toList
            else "user".toList, m.content⟩ : GroqMessage))).map
        GroqMessage.content = l := by
  intro l
  induction l with
  | nil => intro k; rfl
  | cons x xs ih =>
    intro k
    simp only [List.enumFrom, List.map_cons]
    rw [ih (k + 1)]

/-- The contents of the Groq-path request: the system message wrapping the
document context, then every formatted history line in order (no last-4
window), then the current question. -/
theorem groqRequestMessages_contents (context question : List Char)
    (history : List (List Char)) :
    (groqRequestMessages context question history).map GroqMessage.content =
      groqSystemContent context :: (history ++ [question]) := by
  unfold groqRequestMessages chatWithContextMessages groqChatHistory
  rw [show history.enum = List.enumFrom 0 history from rfl]
  simp only [List.map_cons, List.map_append]
  rw [groqRequestMessages_contents_aux history 0]
  rfl

/-- C3 counterexample: with five prior messages the Groq-path request (the
answer-generation input of the first-priority provider) contains the
formatted line `User: m1`, which is older than the most recent four history
lines — the request carries all five, so the claim that the prompt includes
only the most recent 4 prior messages is false on this cited path. -/
theorem c3_groq_full_history_counterexample :
    let H := sessionHistory
      ([⟨"user".toList, "m1".toList⟩, ⟨"assistant".toList, "m2".toList⟩,
        ⟨"user".toList, "m3".toList⟩, ⟨"assistant".toList, "m4".toList⟩,
        ⟨"user".toList, "m5".toList⟩] ++ [⟨"user".toList, "m6".toList⟩])
    (groqRequestMessages [] "m6".toList H).length = 7 ∧
    "User: m1".toList ∈
      (groqRequestMessages [] "m6".toList H).map GroqMessage.content ∧
    "User: m1".toList ∉ H.drop (H.length - 4) := by
  decide

/-- C3 (amended): for every session message history (the prior messages plus
the user message just appended for the current turn) the provider history
excludes the just-appended message on both provider paths — the current
question is carried separately; the Puter-path prompt renders exactly the
most recent (at most) 4 of the remaining formatted `User:`/`Assistant:`
lines; the Groq path instead forwards the entire formatted prior history to
the provider, with no last-4 window. -/
theorem c3_history_handling (prior : List ChatMessage)
    (cur : ChatMessage) (context question : List Char) :
    sessionHistory (prior ++ [cur]) = prior.filterMap formatMsg ∧
    buildQuestionPrompt context question (sessionHistory (prior ++ [cur])) =
      promptWithWindow context question
        ((prior.filterMap formatMsg).drop
          ((prior.filterMap formatMsg).length - 4)) ∧
    ((prior.filterMap formatMsg).drop
      ((prior.filterMap formatMsg).length - 4)).length ≤ 4 ∧
    (groqRequestMessages context question
        (sessionHistory (prior ++ [cur]))).map GroqMessage.content =
      groqSystemContent context ::
        (prior.filterMap formatMsg ++ [question]) := by
  have hhist : sessionHistory (prior ++ [cur]) = prior.filterMap formatMsg := by
    unfold sessionHistory
    rw [List.dropLast_concat]
  refine ⟨hhist, ?_, ?_, ?_⟩
  · rw [hhist]
    set h := prior.filterMap formatMsg with hh
    unfold buildQuestionPrompt promptWithWindow
    rw [includedLines_eq_drop]
    by_cases hempty : h = []
    · simp [hempty]
    · have hlen : 0 < h.length := List.length_pos.mpr hempty
      have hdroplen : (h.drop (h.length - 4)).length = h.length -
          (h.length - 4) := List.length_drop _ _
      have hdropne : h.drop (h.length - 4) ≠ [] := by
        intro hcon
        rw [hcon] at hdroplen
        simp at hdroplen
        omega
      rw [if_neg (by simpa [List.isEmpty_eq_true] using hempty),
        if_neg (by simpa [List.isEmpty_eq_true] using hdropne)]
  · have := List.length_drop ((prior.filterMap formatMsg).length - 4)
      (prior.filterMap formatMsg)
    omega
  · rw [hhist, groqRequestMessages_contents]

/-! ## Grounding heuristic (C4) -/

/-- C4: any answer containing (case-insensitively) the sentence "I cannot
find this information in the document." is reported as not grounded by both
answer-generation gateways, and any answer containing none of the fixed
"not found" phrases (not found / not available / cannot find / not in the
document) is reported as grounded by both. -/
theorem c4_grounding_heuristic (a b : List Char)
    (ha : containsSub (toLower a) (toLower notFoundSentence) = true)
    (hb1 : containsSub (toLower b) "not found".toList = false)
    (hb2 : containsSub (toLower b) "not available".toList = false)
    (hb3 : containsSub (toLower b) "cannot find".toList = false)
    (hb4 : containsSub (toLower b) "not in the document".toList = false) :
    groqAnswerFound a = false ∧ puterAnswerFound a = false ∧
    groqAnswerFound b = true ∧ puterAnswerFound b = true := by
  have hsent :
      containsSub (toLower notFoundSentence) "cannot find".toList = true := by
    decide
  have hcf : containsSub (toLower a) "cannot find".toList = true :=
    containsSub_trans ha hsent
  refine ⟨?_, ?_, ?_, ?_⟩
  · unfold groqAnswerFound
    rw [hcf]
    simp
  · unfold puterAnswerFound
    rw [hcf]
    simp
  · unfold groqAnswerFound
    rw [hb1, hb2, hb3]
    rfl
  · unfold puterAnswerFound
    rw [hb3, hb4]
    rfl

/-- Witness for C4: the canonical "not found" sentence itself flips the
grounded flag to `false` on both gateways, and a phrase-free answer keeps it
`true` on both. -/
theorem c4_grounding_heuristic_witness :
    containsSub (toLower notFoundSentence) (toLower notFoundSentence) = true ∧
    containsSub (toLower "The capital of France is Paris.".toList)
      "not found".toList = false ∧
    containsSub (toLower "The capital of France is Paris.".toList)
      "not available".toList = false ∧
    containsSub (toLower "The capital of France is Paris.".toList)
      "cannot find".toList = false ∧
    containsSub (toLower "The capital of France is Paris.".toList)
      "not in the document".toList = false ∧
    (groqAnswerFound notFoundSentence = false ∧
      puterAnswerFound notFoundSentence = false ∧
      groqAnswerFound "The capital of France is Paris.".toList = true ∧
      puterAnswerFound "The capital of France is Paris.".toList = true) :=
  ⟨by decide, by decide, by decide, by decide, by decide,
    c4_grounding_heuristic notFoundSentence
      "The capital of France is Paris.".toList (by decide) (by decide)
      (by decide) (by decide) (by decide)⟩

/-! ## Lemmas about `fields`, `joinSpace` and `trimSpace` (for C5, C6) -/

theorem fieldsAux_append_sep (c : Char) (hc : isSpace c = true)
    (ys : List Char) :
    ∀ (xs acc : List Char),
      fieldsAux (xs ++ c :: ys) acc = fieldsAux xs acc ++ fieldsAux ys [] := by
  intro xs
  induction xs with
  | nil =>
    intro acc
    by_cases ha : acc.isEmpty <;> simp [fieldsAux, hc, ha]
  | cons x xs' ih =>
    intro acc
    by_cases hx : isSpace x
    · by_cases ha : acc.isEmpty <;>
        simp [fieldsAux, hx, ha, ih]
    · simp [fieldsAux, hx, ih]

theorem fieldsAux_wordOK :
    ∀ (s acc : List Char), (∀ c ∈ acc, isSpace c = false) →
      ∀ w ∈ fieldsAux s acc, wordOK w := by
  intro s
  induction s with
  | nil =>
    intro acc hacc w hw
    simp only [fieldsAux] at hw
    by_cases ha : acc.isEmpty
    · simp [ha] at hw
    · rw [if_neg ha] at hw
      rcases List.mem_singleton.mp hw with rfl
      exact ⟨by simpa [List.isEmpty_eq_true] using ha, hacc⟩
  | cons x s' ih =>
    intro acc hacc w hw
    simp only [fieldsAux] at hw
    by_cases hx : isSpace x
    · rw [if_pos hx] at hw
      by_cases ha : acc.isEmpty
      · rw [if_pos ha] at hw
        exact ih [] (by simp) w hw
      · rw [if_neg ha] at hw
        rcases List.mem_cons.mp hw with rfl | hw'
        · exact ⟨by simpa [List.isEmpty_eq_true] using ha, hacc⟩
        · exact ih [] (by simp) w hw'
    · rw [if_neg hx] at hw
      refine ih (acc ++ [x]) ?_ w hw
      intro d hd
      rcases List.mem_append.mp hd with hd' | hd'
      · exact hacc d hd'
      · rcases List.mem_singleton.mp hd' with rfl
        simpa using hx

theorem fields_wordOK (s : List Char) : ∀ w ∈ fields s, wordOK w :=
  fieldsAux_wordOK s [] (by simp)

theorem fieldsAux_no_space :
    ∀ (w acc : List Char), (∀ c ∈ w, isSpace c = false) → acc ++ w ≠ [] →
      fieldsAux w acc = [acc ++ w] := by
  intro w
  induction w with
  | nil =>
    intro acc _ hne
    have : ¬acc.isEmpty := by simpa [List.isEmpty_eq_true] using hne
    simp [fieldsAux, this]
  | cons x w' ih =>
    intro acc hw _
    have hx : isSpace x = false := hw x (List.mem_cons_self x w')
    have := ih (acc ++ [x])
      (fun c hc => hw c (List.mem_cons_of_mem x hc))
      (by simp)
    simp only [fieldsAux, hx, Bool.false_eq_true, if_false, this,
      List.append_assoc, List.singleton_append]

theorem fields_of_word (w : List Char) (hw : wordOK w) : fields w = [w] := by
  have := fieldsAux_no_space w [] hw.2 (by simpa using hw.1)
  simpa [fields] using this

theorem joinSpace_cons (w : List Char) (rest : List (List Char)) :
    joinSpace (w :: rest) =
      w ++ (if rest.isEmpty then [] else ' ' :: joinSpace rest) := by
  cases rest with
  | nil => simp [joinSpace]
  | cons r rs => simp [joinSpace]

theorem joinSpace_ne_nil (gs : List (List Char)) (hne : gs ≠ [])
    (hok : ∀ w ∈ gs, wordOK w) : joinSpace gs ≠ [] := by
  cases gs with
  | nil => exact absurd rfl hne
  | cons w rest =>
    rw [joinSpace_cons]
    have hw : w ≠ [] := (hok w (List.mem_cons_self w rest)).1
    simp [hw]

theorem fields_joinSpace :
    ∀ gs : List (List Char), (∀ w ∈ gs, wordOK w) →
      fields (joinSpace gs) = gs := by
  intro gs
  induction gs with
  | nil => intro _; rfl
  | cons w rest ih =>
    intro hok
    have hw : wordOK w := hok w (List.mem_cons_self w rest)
    have hrest : ∀ u ∈ rest, wordOK u :=
      fun u hu => hok u (List.mem_cons_of_mem w hu)
    cases rest with
    | nil => simpa [joinSpace] using fields_of_word w hw
    | cons r rs =>
      have hjoin : joinSpace (w :: r :: rs) = w ++ ' ' :: joinSpace (r :: rs) :=
        rfl
      rw [hjoin]
      show fieldsAux (w ++ ' ' :: joinSpace (r :: rs)) [] = w :: r :: rs
      rw [fieldsAux_append_sep ' ' (by decide) (joinSpace (r :: rs)) w []]
      have h1 : fieldsAux w [] = [w] := by
        simpa [fields] using fields_of_word w hw
      have h2 : fieldsAux (joinSpace (r :: rs)) [] = r :: rs := by
        simpa [fields] using ih hrest
      rw [h1, h2]
      rfl

theorem joinSpace_last (gs : List (List Char)) (hok : ∀ w ∈ gs, wordOK w)
    (hne : gs ≠ []) :
    ∃ s c, joinSpace gs = s ++ [c] ∧ isSpace c = false := by
  induction gs with
  | nil => exact absurd rfl hne
  | cons w rest ih =>
    have hw : wordOK w := hok w (List.mem_cons_self w rest)
    cases rest with
    | nil =>
      rcases List.eq_nil_or_concat w with rfl | ⟨ini, c, rfl⟩
      · exact absurd rfl hw.1
      · exact ⟨ini, c, by simp [joinSpace],
          hw.2 c (by simp)⟩
    | cons r rs =>
      have hrest : ∀ u ∈ r :: rs, wordOK u :=
        fun u hu => hok u (List.mem_cons_of_mem w hu)
      rcases ih hrest (by simp) with ⟨s, c, hsc, hc⟩
      refine ⟨w ++ ' ' :: s, c, ?_, hc⟩
      show w ++ ' ' :: joinSpace (r :: rs) = (w ++ ' ' :: s) ++ [c]
      rw [hsc]
      simp

theorem trimSpace_joinSpace (gs : List (List Char))
    (hok : ∀ w ∈ gs, wordOK w) (hne : gs ≠ []) :
    trimSpace (joinSpace gs) = joinSpace gs := by
  obtain ⟨w, rest, rfl⟩ := List.exists_cons_of_ne_nil hne
  have hw : wordOK w := hok w (List.mem_cons_self w rest)
  obtain ⟨x, w', rfl⟩ := List.exists_cons_of_ne_nil hw.1
  have hx : isSpace x = false := hw.2 x (List.mem_cons_self x w')
  have hleft : trimLeft (joinSpace ((x :: w') :: rest)) =
      joinSpace ((x :: w') :: rest) := by
    rw [joinSpace_cons]
    simp [trimLeft, List.dropWhile_cons, hx]
  rcases joinSpace_last ((x :: w') :: rest) hok (by simp) with ⟨s, c, hsc, hc⟩
  unfold trimSpace
  rw [hleft, hsc]
  rw [List.reverse_append, List.reverse_singleton, List.singleton_append,
    List.dropWhile_cons]
  simp [hc]

theorem joinSpace_append_single (w : List Char) :
    ∀ gs : List (List Char), gs ≠ [] →
      joinSpace (gs ++ [w]) = joinSpace gs ++ ' ' :: w := by
  intro gs
  induction gs with
  | nil => intro h; exact absurd rfl h
  | cons x rest ih =>
    intro _
    cases rest with
    | nil => simp [joinSpace]
    | cons r rs =>
      have hstep : ∀ (u a : List Char) (l : List (List Char)),
          joinSpace (u :: a :: l) = u ++ ' ' :: joinSpace (a :: l) :=
        fun _ _ _ => rfl
      have hih := ih (by simp)
      simp only [List.cons_append] at hih ⊢
      rw [hstep x r (rs ++ [w]), hstep x r rs, hih]
      simp

theorem chunkLoop_ne_nil (S : Nat) :
    ∀ (ws : List (List Char)) (cur : List Char),
      (∀ w ∈ ws, w ≠ []) → cur ≠ [] → chunkLoop S ws cur ≠ [] := by
  intro ws
  induction ws with
  | nil =>
    intro cur _ hcur
    have : 0 < cur.length := List.length_pos.mpr hcur
    simp [chunkLoop, this]
  | cons w ws' ih =>
    intro cur hws hcur
    by_cases hfl : cur.length + w.length + 1 > S ∧ 0 < cur.length
    · simp [chunkLoop, hfl]
    · have hw : w ≠ [] := hws w (List.mem_cons_self w ws')
      have hcur' : ((if 0 < cur.length then cur ++ [' '] else cur) ++ w) ≠ [] := by
        simp [hw]
      simp only [chunkLoop, hfl, if_false]
      exact ih _ (fun u hu => hws u (List.mem_cons_of_mem w hu)) hcur'

theorem chunkLoop_join (S : Nat) :
    ∀ (ws gs : List (List Char)), (∀ w ∈ ws, wordOK w) →
      (∀ w ∈ gs, wordOK w) →
      fields (joinSpace (chunkLoop S ws (joinSpace gs))) = gs ++ ws := by
  intro ws
  induction ws with
  | nil =>
    intro gs _ hgs
    by_cases hg : gs = []
    · subst hg
      rfl
    · have hlen : 0 < (joinSpace gs).length :=
        List.length_pos.mpr (joinSpace_ne_nil gs hg hgs)
      simp only [chunkLoop, hlen, if_pos, trimSpace_joinSpace gs hgs hg]
      have : joinSpace [joinSpace gs] = joinSpace gs := rfl
      rw [this, fields_joinSpace gs hgs]
      simp
  | cons w ws' ih =>
    intro gs hws hgs
    have hw : wordOK w := hws w (List.mem_cons_self w ws')
    have hws' : ∀ u ∈ ws', wordOK u :=
      fun u hu => hws u (List.mem_cons_of_mem w hu)
    by_cases hfl : (joinSpace gs).length + w.length + 1 > S ∧
        0 < (joinSpace gs).length
    · have hg : gs ≠ [] := by
        intro hcon
        rw [hcon] at hfl
        simp [joinSpace] at hfl
      have hstep : chunkLoop S (w :: ws') (joinSpace gs) =
          trimSpace (joinSpace gs) :: chunkLoop S ws' w := by
        rw [chunkLoop]
        exact if_pos hfl
      rw [hstep]
      have hR : chunkLoop S ws' w ≠ [] :=
        chunkLoop_ne_nil S ws' w (fun u hu => (hws' u hu).1) hw.1
      rw [trimSpace_joinSpace gs hgs hg, joinSpace_cons]
      rw [if_neg (by simpa [List.isEmpty_eq_true] using hR)]
      show fieldsAux
          (joinSpace gs ++ ' ' :: joinSpace (chunkLoop S ws' w)) [] =
        gs ++ w :: ws'
      rw [fieldsAux_append_sep ' ' (by decide) _ (joinSpace gs) []]
      have h1 : fieldsAux (joinSpace gs) [] = gs := fields_joinSpace gs hgs
      have h2 : fieldsAux (joinSpace (chunkLoop S ws' w)) [] = [w] ++ ws' := by
        have := ih [w] hws' (by
          intro u hu
          rcases List.mem_singleton.mp hu with rfl
          exact hw)
        simpa [fields, joinSpace] using this
      rw [h1, h2]
      rfl
    · have hstep : chunkLoop S (w :: ws') (joinSpace gs) =
          chunkLoop S ws'
            ((if 0 < (joinSpace gs).length then joinSpace gs ++ [' ']
              else joinSpace gs) ++ w) := by
        rw [chunkLoop]
        exact if_neg hfl
      rw [hstep]
      have hcur : (if 0 < (joinSpace gs).length then joinSpace gs ++ [' ']
          else joinSpace gs) ++ w = joinSpace (gs ++ [w]) := by
        by_cases hg : gs = []
        · subst hg
          simp [joinSpace]
        · have hlen : 0 < (joinSpace gs).length :=
            List.length_pos.mpr (joinSpace_ne_nil gs hg hgs)
          rw [if_pos hlen, joinSpace_append_single w gs hg]
          simp
      rw [hcur]
      have hgs' : ∀ u ∈ gs ++ [w], wordOK u := by
        intro u hu
        rcases List.mem_append.mp hu with hu' | hu'
        · exact hgs u hu'
        · rcases List.mem_singleton.mp hu' with rfl
          exact hw
      rw [ih (gs ++ [w]) hws' hgs']
      simp

/-- C5: chunking any text at any size and rejoining the chunks with single
spaces preserves the whitespace-tokenized content exactly — the token list
(and hence the token multiset) of the rejoined chunks equals that of the
original text. -/
theorem c5_chunk_rejoin_tokens (text : List Char) (S : Nat) :
    fields (joinSpace (chunkText text S)) = fields text ∧
    (↑(fields (joinSpace (chunkText text S))) : Multiset (List Char)) =
      ↑(fields text) := by
  have hlist : fields (joinSpace (chunkText text S)) = fields text := by
    unfold chunkText
    by_cases hsmall : text.length ≤ S
    · simp only [hsmall, if_pos]
      rfl
    · simp only [hsmall, if_false]
      have := chunkLoop_join S (fields text) [] (fields_wordOK text) (by simp)
      simpa [joinSpace] using this
  exact ⟨hlist, by rw [hlist]⟩

theorem emitted_chunk_ok (S : Nat) (gs : List (List Char))
    (hgs : ∀ w ∈ gs, wordOK w) (hg : gs ≠ [])
    (hbound : 2 ≤ gs.length → (joinSpace gs).length ≤ S) :
    joinSpace gs ≠ [] ∧
      ((joinSpace gs).length ≤ S ∨ fields (joinSpace gs) = [joinSpace gs]) := by
  refine ⟨joinSpace_ne_nil gs hg hgs, ?_⟩
  cases gs with
  | nil => exact absurd rfl hg
  | cons w rest =>
    cases rest with
    | nil =>
      right
      have : joinSpace [w] = w := rfl
      rw [this]
      exact fields_of_word w (hgs w (List.mem_cons_self w []))
    | cons r rs =>
      left
      exact hbound (by simp)

theorem chunkLoop_chunk_bound (S : Nat) :
    ∀ (ws gs : List (List Char)), (∀ w ∈ ws, wordOK w) →
      (∀ w ∈ gs, wordOK w) →
      (2 ≤ gs.length → (joinSpace gs).length ≤ S) →
      ∀ ch ∈ chunkLoop S ws (joinSpace gs),
        ch ≠ [] ∧ (ch.length ≤ S ∨ fields ch = [ch]) := by
  intro ws
  induction ws with
  | nil =>
    intro gs _ hgs hbound ch hch
    by_cases hg : gs = []
    · subst hg
      simp [chunkLoop, joinSpace] at hch
    · have hlen : 0 < (joinSpace gs).length :=
        List.length_pos.mpr (joinSpace_ne_nil gs hg hgs)
      have hstep : chunkLoop S [] (joinSpace gs) =
          [trimSpace (joinSpace gs)] := by
        rw [chunkLoop]
        exact if_pos hlen
      rw [hstep, trimSpace_joinSpace gs hgs hg] at hch
      rcases List.mem_singleton.mp hch with rfl
      exact emitted_chunk_ok S gs hgs hg hbound
  | cons w ws' ih =>
    intro gs hws hgs hbound ch hch
    have hw : wordOK w := hws w (List.mem_cons_self w ws')
    have hws' : ∀ u ∈ ws', wordOK u :=
      fun u hu => hws u (List.mem_cons_of_mem w hu)
    by_cases hfl : (joinSpace gs).length + w.length + 1 > S ∧
        0 < (joinSpace gs).length
    · have hg : gs ≠ [] := by
        intro hcon
        rw [hcon] at hfl
        simp [joinSpace] at hfl
      have hstep : chunkLoop S (w :: ws') (joinSpace gs) =
          trimSpace (joinSpace gs) :: chunkLoop S ws' w := by
        rw [chunkLoop]
        exact if_pos hfl
      rw [hstep, trimSpace_joinSpace gs hgs hg] at hch
      rcases List.mem_cons.mp hch with rfl | hch'
      · exact emitted_chunk_ok S gs hgs hg hbound
      · refine ih [w] hws' ?_ ?_ ch hch'
        · intro u hu
          rcases List.mem_singleton.mp hu with rfl
          exact hw
        · intro h2
          simp at h2
    · have hstep : chunkLoop S (w :: ws') (joinSpace gs) =
          chunkLoop S ws'
            ((if 0 < (joinSpace gs).length then joinSpace gs ++ [' ']
              else joinSpace gs) ++ w) := by
        rw [chunkLoop]
        exact if_neg hfl
      have hcur : (if 0 < (joinSpace gs).length then joinSpace gs ++ [' ']
          else joinSpace gs) ++ w = joinSpace (gs ++ [w]) := by
        by_cases hg : gs = []
        · subst hg
          simp [joinSpace]
        · have hlen : 0 < (joinSpace gs).length :=
            List.length_pos.mpr (joinSpace_ne_nil gs hg hgs)
          rw [if_pos hlen, joinSpace_append_single w gs hg]
          simp
      rw [hstep, hcur] at hch
      have hgs' : ∀ u ∈ gs ++ [w], wordOK u := by
        intro u hu
        rcases List.mem_append.mp hu with hu' | hu'
        · exact hgs u hu'
        · rcases List.mem_singleton.mp hu' with rfl
          exact hw
      refine ih (gs ++ [w]) hws' hgs' ?_ ch hch
      intro h2
      by_cases hg : gs = []
      · subst hg
        simp at h2
      · have hlen : 0 < (joinSpace gs).length :=
          List.length_pos.mpr (joinSpace_ne_nil gs hg hgs)
        have hle : (joinSpace gs).length + w.length + 1 ≤ S := by
          by_contra hgt
          push_neg at hgt
          exact hfl ⟨hgt, hlen⟩
        rw [joinSpace_append_single w gs hg]
        simp only [List.length_append, List.length_cons]
        omega

/-- C6: for every non-empty text and positive chunk size `S`, `chunkText`
returns no empty chunk, and every returned chunk has length at most `S`
except chunks consisting of a single whitespace-delimited token that is
itself longer than `S`. -/
theorem c6_chunk_size_bound (text : List Char) (S : Nat) (htext : text ≠ [])
    (hS : 0 < S) :
    ∀ ch ∈ chunkText text S,
      ch ≠ [] ∧ (ch.length ≤ S ∨ (fields ch = [ch] ∧ S < ch.length)) := by
  intro ch hch
  unfold chunkText at hch
  by_cases hsmall : text.length ≤ S
  · rw [if_pos hsmall] at hch
    rcases List.mem_singleton.mp hch with rfl
    exact ⟨htext, Or.inl hsmall⟩
  · rw [if_neg hsmall] at hch
    have hbase := chunkLoop_chunk_bound S (fields text) []
      (fields_wordOK text) (by simp) (by intro h2; simp at h2) ch hch
    rcases hbase with ⟨hne, hdisj⟩
    refine ⟨hne, ?_⟩
    by_cases hlen : ch.length ≤ S
    · exact Or.inl hlen
    · rcases hdisj with h | h
      · exact absurd h hlen
      · exact Or.inr ⟨h, by omega⟩

/-- Witness for C6 at `text = "hello world"`, `S = 5`: the chunk
`"hello"` is non-empty and within the size bound. -/
theorem c6_chunk_size_bound_witness :
    "hello world".toList ≠ [] ∧ 0 < 5 ∧
    ("hello".toList ≠ [] ∧
      ("hello".toList.length ≤ 5 ∨
        (fields "hello".toList = ["hello".toList] ∧
          5 < "hello".toList.length))) :=
  ⟨by decide, by decide,
    c6_chunk_size_bound "hello world".toList 5 (by decide) (by decide)
      "hello".toList (by decide)⟩

/-! ## Citation lemmas (C7) -/

theorem hasPage_append (m : List (Int × List Char)) (x : Int × List Char)
    (p : Int) :
    hasPage (m ++ [x]) p = (hasPage m p || decide (x.1 = p)) := by
  simp [hasPage, List.any_append]

theorem buildPageMap_mono :
    ∀ (cs : List Chunk) (m : List (Int × List Char)) (p : Int),
      hasPage m p = true → hasPage (buildPageMap cs m) p = true := by
  intro cs
  induction cs with
  | nil => intro m p h; exact h
  | cons c cs' ih =>
    intro m p h
    by_cases hc : hasPage m (citationPage c) = true
    · simp only [buildPageMap, hc, if_pos]
      exact ih m p h
    · simp only [buildPageMap, hc, if_neg, Bool.false_eq_true, if_false]
      refine ih _ p ?_
      rw [hasPage_append]
      simp [h]

theorem buildPageMap_complete :
    ∀ (cs : List Chunk) (m : List (Int × List Char)), ∀ c ∈ cs,
      hasPage (buildPageMap cs m) (citationPage c) = true := by
  intro cs
  induction cs with
  | nil => intro m c hc; simp at hc
  | cons c₀ cs' ih =>
    intro m c hc
    rcases List.mem_cons.mp hc with rfl | hc'
    · by_cases h0 : hasPage m (citationPage c) = true
      · simp only [buildPageMap, h0, if_pos]
        exact buildPageMap_mono cs' m _ h0
      · simp only [buildPageMap, h0, Bool.false_eq_true, if_false]
        refine buildPageMap_mono cs' _ _ ?_
        rw [hasPage_append]
        simp
    · by_cases h0 : hasPage m (citationPage c₀) = true
      · simp only [buildPageMap, h0, if_pos]
        exact ih m c hc'
      · simp only [buildPageMap, h0, Bool.false_eq_true, if_false]
        exact ih _ c hc'

theorem buildPageMap_nodup :
    ∀ (cs : List Chunk) (m : List (Int × List Char)),
      (m.map Prod.fst).Nodup → ((buildPageMap cs m).map Prod.fst).Nodup := by
  intro cs
  induction cs with
  | nil => intro m h; exact h
  | cons c cs' ih =>
    intro m h
    by_cases hc : hasPage m (citationPage c) = true
    · simp only [buildPageMap, hc, if_pos]
      exact ih m h
    · simp only [buildPageMap, hc, Bool.false_eq_true, if_false]
      refine ih _ ?_
      rw [List.map_append]
      rw [List.nodup_append]
      refine ⟨h, by simp, ?_⟩
      intro p hp hq
      simp only [List.map_cons, List.map_nil, List.mem_singleton] at hq
      subst hq
      rcases List.mem_map.mp hp with ⟨e, he, hep⟩
      have : hasPage m (citationPage c) = true := by
        unfold hasPage
        rw [List.any_eq_true]
        exact ⟨e, he, by simp [hep]⟩
      exact hc this

theorem buildPageMap_entries :
    ∀ (cs : List Chunk) (m : List (Int × List Char)),
      ∀ e ∈ buildPageMap cs m, e ∈ m ∨
        (hasPage m e.1 = false ∧ ∃ c,
          cs.find? (fun c' => decide (citationPage c' = e.1)) = some c ∧
          e.2 = preview c.text) := by
  intro cs
  induction cs with
  | nil => intro m e he; exact Or.inl he
  | cons c cs' ih =>
    intro m e he
    by_cases hc : hasPage m (citationPage c) = true
    · simp only [buildPageMap, hc, if_pos] at he
      rcases ih m e he with h | ⟨hnp, c', hfind, hprev⟩
      · exact Or.inl h
      · have hne : citationPage c ≠ e.1 := by
          intro hcon
          rw [hcon] at hc
          rw [hnp] at hc
          exact Bool.false_ne_true hc
        refine Or.inr ⟨hnp, c', ?_, hprev⟩
        rw [List.find?_cons_of_neg _ (by simpa using hne)]
        exact hfind
    · simp only [buildPageMap, hc, Bool.false_eq_true, if_false] at he
      have hcf : hasPage m (citationPage c) = false :=
        Bool.not_eq_true _ ▸ eq_false_of_ne_true hc
      rcases ih _ e he with h | ⟨hnp, c', hfind, hprev⟩
      · rcases List.mem_append.mp h with hm | hx
        · exact Or.inl hm
        · rcases List.mem_singleton.mp hx with rfl
          refine Or.inr ⟨hcf, c, ?_, rfl⟩
          rw [List.find?_cons_of_pos _ (by simp)]
      · rw [hasPage_append] at hnp
        rcases Bool.or_eq_false_iff.mp hnp with ⟨h1, h2⟩
        have hne : citationPage c ≠ e.1 := by simpa using h2
        refine Or.inr ⟨h1, c', ?_, hprev⟩
        rw [List.find?_cons_of_neg _ (by simpa using hne)]
        exact hfind

/-- C7: for every sequence of selected chunks, `GetCitations` returns
citation entries with pairwise-distinct page numbers; each entry's preview
comes from the first chunk of the sequence attributed to that page, capped at
100 characters with an ellipsis marker appended when truncated; and every
selected chunk's page is represented. -/
theorem c7_citations_spec (chunks : List Chunk) :
    ((getCitations chunks).map Citation.page).Nodup ∧
    (∀ cit ∈ getCitations chunks, ∃ c,
      chunks.find? (fun c' => decide (citationPage c' = cit.page)) = some c ∧
      cit.text = preview c.text ∧
      ((c.text.length ≤ 100 ∧ cit.text = c.text) ∨
        (100 < c.text.length ∧
          cit.text = c.text.take 100 ++ "...".toList))) ∧
    (∀ c ∈ chunks, ∃ cit ∈ getCitations chunks,
      cit.page = citationPage c) := by
  refine ⟨?_, ?_, ?_⟩
  · have h := buildPageMap_nodup chunks [] (by simp)
    unfold getCitations
    rw [List.map_map]
    have hcomp : (Citation.page ∘ fun e : Int × List Char =>
        (⟨e.1, e.2⟩ : Citation)) = Prod.fst := by
      funext e
      rfl
    rw [hcomp]
    exact h
  · intro cit hcit
    unfold getCitations at hcit
    rcases List.mem_map.mp hcit with ⟨e, he, hec⟩
    rcases buildPageMap_entries chunks [] e he with h | ⟨_, c, hfind, hprev⟩
    · simp at h
    · subst hec
      refine ⟨c, hfind, hprev, ?_⟩
      by_cases hl : 100 < c.text.length
      · refine Or.inr ⟨hl, ?_⟩
        rw [hprev]
        simp [preview, hl]
      · refine Or.inl ⟨by omega, ?_⟩
        rw [hprev]
        simp [preview, hl]
  · intro c hc
    have h := buildPageMap_complete chunks [] c hc
    unfold hasPage at h
    rw [List.any_eq_true] at h
    rcases h with ⟨e, he, hep⟩
    refine ⟨⟨e.1, e.2⟩, List.mem_map.mpr ⟨e, he, rfl⟩, ?_⟩
    simpa using of_decide_eq_true hep

/-! ## Streaming lemmas (C8) -/

theorem splitWordsAux_flatten :
    ∀ (s cur : List Char), (splitWordsAux s cur).flatten = cur ++ s := by
  intro s
  induction s with
  | nil =>
    intro cur
    by_cases hc : cur.isEmpty
    · have : cur = [] := by simpa [List.isEmpty_eq_true] using hc
      simp [splitWordsAux, hc, this]
    · simp [splitWordsAux, hc]
  | cons ch rest ih =>
    intro cur
    by_cases hsep : ch = ' ' ∨ ch = '\n'
    · have htok : (if ch = '\n' then ['\n'] else [' ']) = [ch] := by
        rcases hsep with rfl | rfl <;> simp
      simp only [splitWordsAux, hsep, if_pos, htok]
      rw [List.flatten_append]
      simp only [List.flatten_cons, ih []]
      by_cases hc : cur.isEmpty
      · have : cur = [] := by simpa [List.isEmpty_eq_true] using hc
        simp [hc, this]
      · simp [hc]
    · simp only [splitWordsAux, hsep, if_false]
      rw [ih (cur ++ [ch])]
      simp

theorem groupWordsAux_flatten :
    ∀ (ws : List (List Char)) (chunk : List Char) (n : Nat),
      (groupWordsAux ws chunk n).flatten = chunk ++ ws.flatten := by
  intro ws
  induction ws with
  | nil =>
    intro chunk n
    by_cases hc : chunk.isEmpty
    · have : chunk = [] := by simpa [List.isEmpty_eq_true] using hc
      simp [groupWordsAux, hc, this]
    · simp [groupWordsAux, hc]
  | cons w ws' ih =>
    intro chunk n
    simp only [groupWordsAux]
    by_cases h3 : 3 ≤ (if w = [' '] ∨ w = ['\n'] then n else n + 1)
    · rw [if_pos h3]
      simp only [List.flatten_cons, ih [] 0]
      simp
    · rw [if_neg h3]
      rw [ih (chunk ++ w)]
      simp

theorem splitIntoChunks_flatten (text : List Char) :
    (splitIntoChunks text).flatten = text := by
  unfold splitIntoChunks
  rw [groupWordsAux_flatten, splitWordsAux_flatten]
  rfl

/-- C8: for every completed answer, the streaming responder's event sequence
is a list of `token` events whose contents concatenate, in emission order, to
the answer string exactly, followed by exactly one terminal `done` event
carrying the answer, session id, grounded flag and citations, with no
event after it. -/
theorem c8_stream_token_then_done (answer sessionId : List Char)
    (answerFound : Bool) (citations : List Citation) :
    ∃ toks : List (List Char),
      streamEvents answer sessionId answerFound citations =
        toks.map SSEEvent.token ++
          [SSEEvent.done answer sessionId answerFound citations] ∧
      toks.flatten = answer :=
  ⟨splitIntoChunks answer, rfl, splitIntoChunks_flatten answer⟩

/-! ## Session cleanup (C9) -/

theorem cleanupLoop_spec :
    ∀ (l : List (List Char × Session)) (t : Int),
      cleanupLoop l t =
        (l.filter (fun e => decide (t ≤ e.2.lastActivity)),
          (l.filter (fun e => decide (e.2.lastActivity < t))).length) := by
  intro l
  induction l with
  | nil => intro t; rfl
  | cons e rest ih =>
    intro t
    by_cases h : e.2.lastActivity < t
    · have h2 : ¬t ≤ e.2.lastActivity := by omega
      simp [cleanupLoop, ih t, List.filter_cons, h, h2]
    · have h2 : t ≤ e.2.lastActivity := by omega
      simp [cleanupLoop, ih t, List.filter_cons, h, h2]

/-- C9: `CleanupInactive d` keeps exactly the sessions whose last activity is
at or after `now - d` (in stored order), removes every session strictly older
than `now - d` and no other, and returns the number of sessions removed. -/
theorem c9_cleanup_inactive (store : List (List Char × Session))
    (now duration : Int) :
    (cleanupInactive store now duration).1 =
      store.filter (fun e => decide (now - duration ≤ e.2.lastActivity)) ∧
    (∀ e ∈ store, e.2.lastActivity < now - duration →
      e ∉ (cleanupInactive store now duration).1) ∧
    (∀ e ∈ store, now - duration ≤ e.2.lastActivity →
      e ∈ (cleanupInactive store now duration).1) ∧
    (cleanupInactive store now duration).2 =
      (store.filter
        (fun e => decide (e.2.lastActivity < now - duration))).length := by
  have h1 : (cleanupInactive store now duration).1 =
      store.filter (fun e => decide (now - duration ≤ e.2.lastActivity)) := by
    unfold cleanupInactive
    rw [cleanupLoop_spec]
  have h2 : (cleanupInactive store now duration).2 =
      (store.filter
        (fun e => decide (e.2.lastActivity < now - duration))).length := by
    unfold cleanupInactive
    rw [cleanupLoop_spec]
  refine ⟨h1, ?_, ?_, h2⟩
  · intro e _ hlt hmem
    rw [h1] at hmem
    have := List.of_mem_filter hmem
    have := of_decide_eq_true this
    omega
  · intro e he hge
    rw [h1]
    exact List.mem_filter.mpr ⟨he, by simpa using hge⟩

/-! ## Provider failure in `AskQuestion` (C10) -/

theorem findSession_map_update (sid : List Char) (f : Session → Session) :
    ∀ (store : List (List Char × Session)) (s : Session),
      findSession store sid = some s →
      findSession
        (store.map (fun e => if e.1 = sid then (e.1, f e.2) else e)) sid =
        some (f s) := by
  intro store
  induction store with
  | nil => intro s h; simp [findSession] at h
  | cons e rest ih =>
    intro s h
    by_cases he : e.1 = sid
    · rw [findSession, if_pos he] at h
      rcases Option.some.injEq .. ▸ h with rfl
      simp only [List.map_cons, if_pos he]
      rw [findSession]
      simp [he]
    · rw [findSession, if_neg he] at h
      simp only [List.map_cons, if_neg he]
      rw [findSession, if_neg he]
      exact ih s h

/-- C10: when the session exists and the answer provider fails, `AskQuestion`
returns an error response with code `AI_SERVICE_ERROR`, and the user message
appended at the start of the turn remains in the session's message history
with no paired assistant message — the session state is not rolled back. -/
theorem c10_provider_error_keeps_user_message
    (store : List (List Char × Session)) (sid message err : List Char)
    (s : Session) (h : findSession store sid = some s) :
    (askQuestion store sid message (Except.error err)).1.status =
      Status.failure ∧
    (askQuestion store sid message (Except.error err)).1.errorCode =
      "AI_SERVICE_ERROR".toList ∧
    findSession (askQuestion store sid message (Except.error err)).2 sid =
      some { s with
        messages := s.messages ++ [⟨"user".toList, message⟩] } := by
  have hadd : addMessage store sid ⟨"user".toList, message⟩ =
      some (store.map (fun e =>
        if e.1 = sid then
          (e.1, { e.2 with
            messages := e.2.messages ++ [⟨"user".toList, message⟩] })
        else e)) := by
    unfold addMessage
    rw [h]
  unfold askQuestion
  rw [h, hadd]
  exact ⟨rfl, rfl,
    findSession_map_update sid
      (fun t => { t with
        messages := t.messages ++ [⟨"user".toList, message⟩] })
      store s h⟩

/-- Witness for C10 at a one-session store: the provider error leaves the
user message stored and surfaces `AI_SERVICE_ERROR`. -/
theorem c10_provider_error_keeps_user_message_witness :
    findSession [("s1".toList, (⟨[], [], 0⟩ : Session))] "s1".toList =
      some (⟨[], [], 0⟩ : Session) ∧
    ((askQuestion [("s1".toList, ⟨[], [], 0⟩)] "s1".toList "hi".toList
        (Except.error "boom".toList)).1.status = Status.failure ∧
      (askQuestion [("s1".toList, ⟨[], [], 0⟩)] "s1".toList "hi".toList
        (Except.error "boom".toList)).1.errorCode =
        "AI_SERVICE_ERROR".toList ∧
      findSession
        (askQuestion [("s1".toList, ⟨[], [], 0⟩)] "s1".toList "hi".toList
          (Except.error "boom".toList)).2 "s1".toList =
        some ⟨[⟨"user".toList, "hi".toList⟩], [], 0⟩) :=
  ⟨by decide,
    c10_provider_error_keeps_user_message
      [("s1".toList, ⟨[], [], 0⟩)] "s1".toList "hi".toList "boom".toList
      ⟨[], [], 0⟩ (by decide)⟩
